import Mathlib

/-!
Verification of the pyvx backend (`pyvx/backend.py`): a shallow embedding of
the image data model, the format-inference operators, the 2-D addressing code
generator, producer binding, the worklist scheduler, and the elementwise node
archetype, together with theorems settling the specification claims.
-/

namespace Pyvx

/-- The error taxonomy of `pyvx.backend`: `InvalidFormatError`,
`MultipleWritersError`, `InvalidGraphError` (raised by `Graph.schedule` with
the message about loops), and Python's `NotImplementedError`. -/
inductive VxError where
  | invalidFormat
  | multipleWriters
  | invalidGraph
  | notImplemented
deriving DecidableEq, Repr

/-- Border modes handled by `Image.getitem2d` (`BORDER_MODE_UNDEFINED`,
`BORDER_MODE_REPLICATE`; any other mode raises `NotImplementedError`). -/
inductive BorderMode where
  | undefined
  | replicate
  | constant
deriving DecidableEq, Repr

/-- Conversion policies; `AddNode.verify` accepts only
`CONVERT_POLICY_TRUNCATE` and raises `NotImplementedError` otherwise. -/
inductive ConvertPolicy where
  | truncate
  | saturate
deriving DecidableEq, Repr

/-- Modelled from the spec: the color format descriptors live in
`pyvx.types`, which is not in the source tree.  Per spec section 4.1 a
descriptor carries a base element type and an item count (channels per
pixel); `VIRT` is the "not yet resolved" sentinel (`FOURCC_VIRT`).  `U8` is
the 8-bit single-channel format and `RGB` an 8-bit interleaved 3-channel
format. -/
inductive Color where
  | VIRT
  | U8
  | RGB
deriving DecidableEq, Repr

/-- Modelled from the spec: the `items` attribute of a color descriptor is
its channel count per pixel (`U8` has 1, `{R,G,B}` has 3); the item count of
the unresolved sentinel is irrelevant to every claim and is set to 0. -/
def Color.items : Color → Nat
  | .VIRT => 0
  | .U8 => 1
  | .RGB => 3

/-- Modelled from the spec: the per-channel addressing data that
`color.subsamp(channel)` and `color.offset(channel)` of the missing
`pyvx.types` provide — a byte offset within a pixel and whether the channel
is 2:1 chroma subsampled (in which case accesses go through the emitted
`subsample` helper). -/
structure Channel where
  offset : Nat
  subsampled : Bool
deriving DecidableEq, Repr

/-- The mutable resolution state of an `Image`: `width`/`height` (0 means
unresolved) and `color` (`Color.VIRT` means unresolved). -/
structure ImgState where
  width : Nat
  height : Nat
  color : Color
deriving DecidableEq, Repr

/-- `Image.suggest_color`: sets the color only while it is unresolved. -/
def suggest_color (s : ImgState) (c : Color) : ImgState :=
  if s.color = Color.VIRT then { s with color := c } else s

/-- `Image.ensure_shape` (two-argument form): fills each still-zero
dimension from the arguments, then raises `InvalidFormatError` if either
resolved dimension conflicts.  The state is returned in both outcomes
because the Python code mutates the image in place before the check. -/
def ensure_shape (s : ImgState) (w h : Nat) : Except VxError Unit × ImgState :=
  let s1 := if s.width = 0 then { s with width := w } else s
  let s2 := if s1.height = 0 then { s1 with height := h } else s1
  if s2.width ≠ w ∨ s2.height ≠ h then (.error .invalidFormat, s2)
  else (.ok (), s2)

/-- `Image.ensure_similar`: shape-match against `other`, suggest its color,
then raise `InvalidFormatError` when the item counts differ. -/
def ensure_similar (s other : ImgState) : Except VxError Unit × ImgState :=
  match ensure_shape s other.width other.height with
  | (.error e, s1) => (.error e, s1)
  | (.ok _, s1) =>
    let s2 := suggest_color s1 other.color
    if s2.color.items ≠ other.color.items then (.error .invalidFormat, s2)
    else (.ok (), s2)

/-- The `clamp` helper emitted once by `Graph.compile`:
`clamp(val, min_val, max_val)` saturates `val` into the closed interval. -/
def clamp (val min_val max_val : Int) : Int :=
  if val < min_val then min_val
  else if val > max_val then max_val
  else val

/-- The `subsample` helper emitted once by `Graph.compile`:
`subsample(val) = val & ~1`, i.e. the value rounded down to an even
number (on `Int` this is `2 * (val.fdiv 2)`). -/
def subsample (v : Int) : Int := 2 * Int.fdiv v 2

/-- Application of a channel's subsampling wrapper: the generated access
wraps the coordinate in `subsample(...)` exactly when the channel is 2:1
subsampled, and leaves it untouched otherwise. -/
def applySS (ch : Channel) (v : Int) : Int :=
  if ch.subsampled then subsample v else v

/-- Value of the address expression emitted by `Image.getitem2d` for a
resolved channel: row stride is `width * items`, column stride is `items`;
under `UNDEFINED` the whole offset is clamped to
`[0, width * height - 1]`, under `REPLICATE` each coordinate is clamped to
its axis bound before the stride multiplication, and any other border mode
raises `NotImplementedError`. -/
def getitem2dChan (img : ImgState) (ch : Channel) (mode : BorderMode)
    (x y : Int) : Except VxError Int :=
  let stride_y : Int := (img.width : Int) * (img.color.items : Int)
  let stride_x : Int := (img.color.items : Int)
  match mode with
  | .undefined =>
      .ok (clamp (applySS ch y * stride_y + applySS ch x * stride_x + (ch.offset : Int))
            0 ((img.width : Int) * (img.height : Int) - 1))
  | .replicate =>
      .ok (applySS ch (clamp y 0 ((img.height : Int) - 1)) * stride_y +
             applySS ch (clamp x 0 ((img.width : Int) - 1)) * stride_x + (ch.offset : Int))
  | .constant => .error .notImplemented

/-- `Image.getitem2d`: a channel-unqualified access is rejected with
`InvalidFormatError` on a multi-channel image and otherwise resolves to
`CHANNEL_0` (offset 0, no subsampling on a single-channel format —
modelled from the spec, the channel table living in the missing
`pyvx.types`). -/
def getitem2d (img : ImgState) (ch : Option Channel) (mode : BorderMode)
    (x y : Int) : Except VxError Int :=
  match ch with
  | none =>
      if img.color.items ≠ 1 then .error .invalidFormat
      else getitem2dChan img ⟨0, false⟩ mode x y
  | some c => getitem2dChan img c mode x y

/-- The 2-D `UNDEFINED`-mode address formula as the specification states
it: the final offset clamped to `[0, total-length - 1]` with total-length
the full value count `width * height * items`.  Written from the spec's
words, to be compared with `getitem2dChan`. -/
def specUndefinedAddr (img : ImgState) (ch : Channel) (x y : Int) : Int :=
  clamp (applySS ch y * ((img.width : Int) * (img.color.items : Int)) +
           applySS ch x * (img.color.items : Int) + (ch.offset : Int))
    0 ((img.width : Int) * (img.height : Int) * (img.color.items : Int) - 1)

/-- The producer-binding step of `Node.setup` for one image: the image's
`producer` is set to this node only when it is still `None`; an existing
producer is never overwritten. -/
def bindProducer (producer : Option Nat) (nid : Nat) : Option Nat :=
  match producer with
  | none => some nid
  | some p => some p

/-- The single-writer re-check of `Node.do_verify` for one image: raises
`MultipleWritersError` unless the image's producer is this very node. -/
def checkSingleWriter (producer : Option Nat) (nid : Nat) : Except VxError Unit :=
  if producer = some nid then .ok () else .error .multipleWriters

instance {ε α : Type} [DecidableEq ε] [DecidableEq α] : DecidableEq (Except ε α)
  | .error x, .error y =>
    if h : x = y then isTrue (by rw [h])
    else isFalse (by intro hc; cases hc; exact h rfl)
  | .error _, .ok _ => isFalse (by intro hc; cases hc)
  | .ok _, .error _ => isFalse (by intro hc; cases hc)
  | .ok x, .ok y =>
    if h : x = y then isTrue (by rw [h])
    else isFalse (by intro hc; cases hc; exact h rfl)

/-- A graph node as the scheduler sees it: its `inputs`, `outputs` and
`inouts` image lists (images identified by `Nat` ids; non-image parameters
are always available to the scheduler and are therefore omitted). -/
structure Node where
  inputs : List Nat
  outputs : List Nat
  inouts : List Nat
deriving DecidableEq, Repr

/-- A graph: the node list in insertion order, the registered image data
objects (`Graph.verify` collects them as `self.images`), and the subset of
images whose `virtual` flag is set. -/
structure Graph where
  nodes : List Node
  images : List Nat
  virtuals : List Nat
deriving DecidableEq, Repr

/-- All images some node writes: the loop
`for n in self.nodes: for d in n.outputs + n.inouts: present[d] = False`
of `Graph.schedule`. -/
def Graph.writes (g : Graph) : List Nat :=
  g.nodes.flatMap fun n => n.outputs ++ n.inouts

/-- The initial availability map of `Graph.schedule`: a defaultdict of
`True`, overwritten with `not d.virtual` for every registered image and
then with `False` for every written image. -/
def Graph.initPresent (g : Graph) (d : Nat) : Bool :=
  if d ∈ g.writes then false
  else if d ∈ g.images then (if d ∈ g.virtuals then false else true)
  else true

/-- `for d in n.outputs: present[d] = True`. -/
def markOutputs (present : Nat → Bool) (ds : List Nat) : Nat → Bool :=
  fun d => if d ∈ ds then true else present d

/-- One pass of the scheduler's worklist loop: scan the worklist in order,
schedule every node whose inputs are all currently available (marking its
outputs — and only its outputs — available immediately), and collect the
rest as the remaining worklist.  Returns
(scheduled, remaining, updated availability). -/
def schedulePass (present : Nat → Bool) :
    List Node → List Node × List Node × (Nat → Bool)
  | [] => ([], [], present)
  | n :: rest =>
    if n.inputs.all present then
      let r := schedulePass (markOutputs present n.outputs) rest
      (n :: r.1, r.2.1, r.2.2)
    else
      let r := schedulePass present rest
      (r.1, n :: r.2.1, r.2.2)

/-- The `while worklist:` loop of `Graph.schedule`, with fuel bounding the
number of passes: if a pass schedules zero nodes while nodes remain, fail
with `InvalidGraphError` ("Loops not allowed in the graph.").  A fuel of
`worklist.length + 1` always suffices, because every non-failing pass
strictly shrinks the worklist; fuel exhaustion reports the same error. -/
def scheduleAux : Nat → (Nat → Bool) → List Node → Except VxError (List Node)
  | 0, _, _ => .error .invalidGraph
  | _ + 1, _, [] => .ok []
  | fuel + 1, present, n :: rest =>
    let r := schedulePass present (n :: rest)
    if r.2.1.length = (n :: rest).length then .error .invalidGraph
    else
      match scheduleAux fuel r.2.2 r.2.1 with
      | .error e => .error e
      | .ok more => .ok (r.1 ++ more)

/-- `Graph.schedule`: run the worklist passes from the initial availability
map over the whole node list. -/
def Graph.schedule (g : Graph) : Except VxError (List Node) :=
  scheduleAux (g.nodes.length + 1) g.initPresent g.nodes

/-- The producer of an image: `Node.setup` assigns `d.producer = self` at
the first construction of a node writing `d` (through an output or inout
parameter), so the producer is the first such node in insertion order. -/
def Graph.producerOf (g : Graph) (d : Nat) : Option Node :=
  g.nodes.find? fun n => (n.outputs ++ n.inouts).contains d

/-- The single-writer invariant that `Node.setup`/`Node.do_verify` enforce
for every graph built in (default) eager-verification mode: no image is
written by two distinct nodes. -/
def SingleWriter (g : Graph) : Prop :=
  ∀ n ∈ g.nodes, ∀ m ∈ g.nodes, ∀ d ∈ n.outputs ++ n.inouts,
    d ∈ m.outputs ++ m.inouts → n = m

instance (g : Graph) : Decidable (SingleWriter g) := by
  unfold SingleWriter; infer_instance

/-- Dataflow dependency between nodes of a graph: `n` consumes an image
that `m` produces through an output parameter. -/
def Depends (g : Graph) (n m : Node) : Prop :=
  n ∈ g.nodes ∧ m ∈ g.nodes ∧ ∃ d ∈ n.inputs, d ∈ m.outputs

instance (g : Graph) (n m : Node) : Decidable (Depends g n m) := by
  unfold Depends; infer_instance

/-- Modelled from the spec: `result_color` of the missing `pyvx.types`
unifies the input formats into one result format and fails with a format
error when the inputs' item counts are incompatible; identical formats
unify to themselves. -/
def result_color (a b : Color) : Except VxError Color :=
  if a = b then .ok a
  else if a.items = b.items then .ok a
  else .error .invalidFormat

/-- `AddNode.verify` (via `ElementwiseNode.verify`) on the resolution
states: unify the two input colors, suggest the result onto the output,
`ensure_similar` the output against the first input, then reject any
policy other than `CONVERT_POLICY_TRUNCATE`.  Returns the resolved output
state. -/
def addNodeVerify (in1 in2 out : ImgState) (policy : ConvertPolicy) :
    Except VxError ImgState :=
  match result_color in1.color in2.color with
  | .error e => .error e
  | .ok c =>
    let out1 := suggest_color out c
    match ensure_similar out1 in1 with
    | (.error e, _) => .error e
    | (.ok _, out2) =>
      if policy = ConvertPolicy.truncate then .ok out2
      else .error .notImplemented

/-- Semantics of the kernel `ElementwiseNode.compile` emits for `AddNode`
on 8-bit buffers: one loop over the value count, loading `in1` and `in2`
into `uint8_t` temporaries, executing `out = in1 + in2;` and storing the
`uint8_t` temporary `out` — so each stored value is the sum reduced mod
256 by the 8-bit assignment. -/
def addNodeRunU8 (buf1 buf2 : List Nat) : List Nat :=
  List.zipWith (fun a b => (a + b) % 256) buf1 buf2

/-! ### Scheduler theory -/

/-- A node sequence is executable from availability map `p`: each node's
inputs are all available at its position, counting the outputs of the
nodes before it. -/
def AvailSeq (p : Nat → Bool) : List Node → Prop
  | [] => True
  | n :: rest => n.inputs.all p = true ∧ AvailSeq (markOutputs p n.outputs) rest

/-- Marking the outputs of a whole node sequence, one node at a time. -/
def markList (p : Nat → Bool) : List Node → (Nat → Bool)
  | [] => p
  | n :: rest => markList (markOutputs p n.outputs) rest

theorem markList_spec (l : List Node) (p : Nat → Bool) (d : Nat) :
    markList p l d = (p d || l.any fun m => decide (d ∈ m.outputs)) := by
  induction l generalizing p with
  | nil => simp [markList]
  | cons n rest ih =>
    simp only [markList, ih, List.any_cons, markOutputs]
    by_cases h : d ∈ n.outputs <;> simp [h]

theorem schedulePass_perm (ws : List Node) (p : Nat → Bool) :
    ((schedulePass p ws).1 ++ (schedulePass p ws).2.1).Perm ws := by
  induction ws generalizing p with
  | nil => simp [schedulePass]
  | cons n rest ih =>
    by_cases h : n.inputs.all p
    · simpa [schedulePass, h] using (ih (markOutputs p n.outputs)).cons n
    · simp only [schedulePass, h, Bool.false_eq_true, if_false]
      exact List.perm_middle.trans ((ih p).cons n)

theorem schedulePass_present (ws : List Node) (p : Nat → Bool) (d : Nat) :
    (schedulePass p ws).2.2 d
      = (p d || (schedulePass p ws).1.any fun m => decide (d ∈ m.outputs)) := by
  induction ws generalizing p with
  | nil => simp [schedulePass]
  | cons n rest ih =>
    by_cases h : n.inputs.all p
    · simp only [schedulePass, h, if_true, List.any_cons,
        ih (markOutputs p n.outputs), markOutputs]
      by_cases hd : d ∈ n.outputs <;> simp [hd]
    · simp [schedulePass, h, ih p]

theorem schedulePass_avail (ws : List Node) (p : Nat → Bool) :
    AvailSeq p (schedulePass p ws).1 := by
  induction ws generalizing p with
  | nil => simp [schedulePass, AvailSeq]
  | cons n rest ih =>
    by_cases h : n.inputs.all p
    · simp only [schedulePass, h, if_true]
      exact ⟨h, ih (markOutputs p n.outputs)⟩
    · simpa [schedulePass, h] using ih p

theorem availSeq_congr {p q : Nat → Bool} (hpq : ∀ d, p d = q d) :
    ∀ l : List Node, AvailSeq p l → AvailSeq q l := by
  intro l
  induction l generalizing p q with
  | nil => intro _; trivial
  | cons n rest ih =>
    intro h
    obtain ⟨h1, h2⟩ := h
    refine ⟨?_, ?_⟩
    · rw [List.all_eq_true] at h1 ⊢
      intro d hd
      rw [← hpq d]; exact h1 d hd
    · exact ih (fun d => by simp [markOutputs, hpq d]) h2

theorem availSeq_append {p : Nat → Bool} {s t : List Node}
    (hs : AvailSeq p s) (ht : AvailSeq (markList p s) t) :
    AvailSeq p (s ++ t) := by
  induction s generalizing p with
  | nil => exact ht
  | cons n rest ih =>
    obtain ⟨h1, h2⟩ := hs
    exact ⟨h1, ih h2 ht⟩

theorem scheduleAux_ok (fuel : Nat) (p : Nat → Bool) (ws order : List Node)
    (h : scheduleAux fuel p ws = .ok order) :
    order.Perm ws ∧ AvailSeq p order := by
  induction fuel generalizing p ws order with
  | zero => cases h
  | succ fuel ih =>
    cases ws with
    | nil =>
      cases h
      exact ⟨List.Perm.refl _, trivial⟩
    | cons n rest =>
      simp only [scheduleAux] at h
      by_cases hlen : (schedulePass p (n :: rest)).2.1.length = (n :: rest).length
      · rw [if_pos hlen] at h; cases h
      · rw [if_neg hlen] at h
        cases hrec : scheduleAux fuel (schedulePass p (n :: rest)).2.2
            (schedulePass p (n :: rest)).2.1 with
        | error e => rw [hrec] at h; cases h
        | ok more =>
          rw [hrec] at h
          cases h
          obtain ⟨hperm, havail⟩ := ih _ _ _ hrec
          constructor
          · exact (hperm.append_left _).trans (schedulePass_perm (n :: rest) p)
          · refine availSeq_append (schedulePass_avail (n :: rest) p) ?_
            refine availSeq_congr (fun d => ?_) _ havail
            rw [schedulePass_present, markList_spec]

theorem scheduleAux_error (fuel : Nat) (p : Nat → Bool) (ws : List Node)
    (e : VxError) (h : scheduleAux fuel p ws = .error e) : e = .invalidGraph := by
  induction fuel generalizing p ws with
  | zero => cases h; rfl
  | succ fuel ih =>
    cases ws with
    | nil => cases h
    | cons n rest =>
      simp only [scheduleAux] at h
      by_cases hlen : (schedulePass p (n :: rest)).2.1.length = (n :: rest).length
      · rw [if_pos hlen] at h; cases h; rfl
      · rw [if_neg hlen] at h
        cases hrec : scheduleAux fuel (schedulePass p (n :: rest)).2.2
            (schedulePass p (n :: rest)).2.1 with
        | error e2 =>
          rw [hrec] at h; cases h
          exact ih _ _ hrec
        | ok more => rw [hrec] at h; cases h

theorem availSeq_split (l₁ : List Node) (p : Nat → Bool) (n : Node) (l₂ : List Node)
    (h : AvailSeq p (l₁ ++ n :: l₂)) (d : Nat) (hd : d ∈ n.inputs) :
    p d = true ∨ ∃ m, m ∈ l₁ ∧ d ∈ m.outputs := by
  induction l₁ generalizing p with
  | nil =>
    obtain ⟨h1, _⟩ := h
    rw [List.all_eq_true] at h1
    exact Or.inl (h1 d hd)
  | cons m₀ l₁ ih =>
    obtain ⟨_, h2⟩ := h
    rcases ih (markOutputs p m₀.outputs) h2 with hp | ⟨m, hm1, hm2⟩
    · by_cases hin : d ∈ m₀.outputs
      · exact Or.inr ⟨m₀, List.mem_cons_self _ _, hin⟩
      · left
        simpa [markOutputs, hin] using hp
    · exact Or.inr ⟨m, List.mem_cons_of_mem _ hm1, hm2⟩

theorem indexOf_lt_of_mem_take {α : Type} [DecidableEq α] {b : α} :
    ∀ (l : List α) (i : Nat), b ∈ l.take i → l.indexOf b < i := by
  intro l
  induction l with
  | nil => intro i h; simp at h
  | cons x xs ih =>
    intro i h
    cases i with
    | zero => simp at h
    | succ j =>
      rw [List.take_succ_cons] at h
      by_cases hbx : b = x
      · rw [hbx, List.indexOf_cons_self]
        exact Nat.succ_pos j
      · have hb : b ∈ xs.take j := by
          cases h with
          | head => exact absurd rfl hbx
          | tail _ h => exact h
        rw [List.indexOf_cons_ne _ (fun hxb => hbx hxb.symm)]
        exact Nat.succ_lt_succ (ih j hb)

/-- Whenever `Graph.schedule` returns an order, each node's inputs were
available at its position: initially available, or an output of an
earlier node of the order. -/
theorem schedule_ok_sound (g : Graph) (order : List Node)
    (h : g.schedule = .ok order) :
    order.Perm g.nodes ∧
      ∀ l₁ n l₂, order = l₁ ++ n :: l₂ → ∀ d ∈ n.inputs,
        g.initPresent d = true ∨ ∃ m, m ∈ l₁ ∧ d ∈ m.outputs := by
  obtain ⟨hperm, havail⟩ := scheduleAux_ok _ _ _ _ h
  refine ⟨hperm, ?_⟩
  intro l₁ n l₂ hsplit d hd
  rw [hsplit] at havail
  exact availSeq_split l₁ _ n l₂ havail d hd

theorem mem_writes_of_written {g : Graph} {m : Node} {d : Nat}
    (hm : m ∈ g.nodes) (hd : d ∈ m.outputs ++ m.inouts) : d ∈ g.writes := by
  unfold Graph.writes
  rw [List.mem_flatMap]
  exact ⟨m, hm, hd⟩

theorem initPresent_false_of_written {g : Graph} {m : Node} {d : Nat}
    (hm : m ∈ g.nodes) (hd : d ∈ m.outputs ++ m.inouts) :
    g.initPresent d = false := by
  unfold Graph.initPresent
  rw [if_pos (mem_writes_of_written hm hd)]

theorem clamp_idem (v lo hi : Int) (hlh : lo ≤ hi) :
    clamp (clamp v lo hi) lo hi = clamp v lo hi := by
  unfold clamp
  split_ifs <;> omega

/-- The 5x5 single-channel image of the border-mode addressing scenario. -/
def img5x5 : ImgState := ⟨5, 5, Color.U8⟩

/-- Claim C5: for a 5x5 single-channel image under `REPLICATE`, the 2-D
access at (-1,-1) resolves to the same buffer element as (0,0) and the
access at (5,5) to the same element as (4,4) (elements 0 and 24); in
general each coordinate is clamped to its axis bound independently, before
the stride multiplication. -/
theorem replicate_border_addressing :
    (getitem2d img5x5 none .replicate (-1) (-1) = getitem2d img5x5 none .replicate 0 0) ∧
    (getitem2d img5x5 none .replicate 5 5 = getitem2d img5x5 none .replicate 4 4) ∧
    (getitem2d img5x5 none .replicate 0 0 = .ok 0) ∧
    (getitem2d img5x5 none .replicate 4 4 = .ok 24) ∧
    ∀ x y : Int, getitem2d img5x5 none .replicate x y
        = getitem2d img5x5 none .replicate (clamp x 0 4) (clamp y 0 4) := by
  refine ⟨by decide, by decide, by decide, by decide, fun x y => ?_⟩
  show Except.ok _ = Except.ok _
  norm_num [img5x5, applySS, Color.items, clamp_idem]

/-- Claim C4 (divergence record): at a 2x2 three-item image with channel
byte offset 2 and in-bounds coordinate (1,1), the `UNDEFINED`-mode access
emitted by `Image.getitem2d` clamps to the pixel count
`width * height - 1 = 3`, while the specification's formula clamps to the
value count `width * height * items - 1 = 11`, so the code redirects an
in-bounds channel access (intended flat offset 11) to offset 3. -/
theorem getitem2d_undefined_clamp_divergence :
    getitem2d ⟨2, 2, Color.RGB⟩ (some ⟨2, false⟩) .undefined 1 1 = .ok 3 ∧
    specUndefinedAddr ⟨2, 2, Color.RGB⟩ ⟨2, false⟩ 1 1 = 11 ∧
    getitem2d ⟨2, 2, Color.RGB⟩ (some ⟨2, false⟩) .undefined 1 1 ≠
      .ok (specUndefinedAddr ⟨2, 2, Color.RGB⟩ ⟨2, false⟩ 1 1) := by
  decide

/-- Claim C7: once an image has a producer, a second node binding it as an
output or inout does not overwrite the producer and fails the immediate
single-writer re-check with `MultipleWritersError`. -/
theorem second_binding_multiple_writers (n1 n2 : Nat) (h : n1 ≠ n2) :
    bindProducer (some n1) n2 = some n1 ∧
    checkSingleWriter (bindProducer (some n1) n2) n2 = .error .multipleWriters := by
  refine ⟨rfl, ?_⟩
  simp only [bindProducer, checkSingleWriter]
  rw [if_neg (by simpa using h)]

theorem second_binding_multiple_writers_witness :
    bindProducer (some 0) 1 = some 0 ∧
    checkSingleWriter (bindProducer (some 0) 1) 1 = .error .multipleWriters :=
  second_binding_multiple_writers 0 1 (by decide)

/-- Claim C10: on an image with resolved width `w0` and unresolved height,
`ensure_shape` called with a conflicting non-zero width `w` and any height
`h` raises `InvalidFormatError`, but only after having stored `h` into the
image's height — the failing call leaves the image mutated. -/
theorem ensure_shape_mutates_on_failure (w0 w h : Nat) (c : Color)
    (hw0 : w0 ≠ 0) (hw : w ≠ 0) (hne : w ≠ w0) :
    ensure_shape ⟨w0, 0, c⟩ w h = (.error .invalidFormat, ⟨w0, h, c⟩) := by
  have hne2 : w0 ≠ w := fun hh => hne hh.symm
  simp [ensure_shape, hw0, hne2]

theorem ensure_shape_mutates_on_failure_witness :
    ensure_shape ⟨2, 0, Color.U8⟩ 3 9 = (.error .invalidFormat, ⟨2, 9, Color.U8⟩) :=
  ensure_shape_mutates_on_failure 2 3 9 Color.U8 (by decide) (by decide) (by decide)

/-- A one-node graph whose only (non-virtual) image is written by the
node's output parameter. -/
def gOut : Graph := ⟨[⟨[], [7], []⟩], [7], []⟩

/-- An acyclic graph in which node `⟨[],[],[0]⟩` writes the non-virtual
image 0 through an inout parameter and node `⟨[0],[1],[]⟩` reads it. -/
def gInout : Graph := ⟨[⟨[], [], [0]⟩, ⟨[0], [1], []⟩], [0, 1], [1]⟩

/-- Claim C2 fails on the code: the non-virtual image 7 of `gOut` is not
available before any node has been scheduled (it is a node's output), and
in `gInout` the image 0 does not become available when its producer (which
writes it through an inout parameter) is scheduled. -/
theorem availability_model_cex :
    (7 ∈ gOut.images ∧ 7 ∉ gOut.virtuals ∧ gOut.initPresent 7 = false) ∧
    (gInout.producerOf 0 = some ⟨[], [], [0]⟩ ∧
      (schedulePass gInout.initPresent gInout.nodes).1 = [⟨[], [], [0]⟩] ∧
      (schedulePass gInout.initPresent gInout.nodes).2.2 0 = false) := by
  decide

/-- Claim C2 (amended): an image is available before scheduling iff no
node writes it and, when registered, it is not virtual; a scheduler pass
makes an image available exactly when it already was or some node
scheduled in the pass lists it among its output parameters (inout
parameters never mark their image available). -/
theorem availability_model_amended (g : Graph) (d : Nat) (p : Nat → Bool)
    (ws sched rem : List Node) (p2 : Nat → Bool)
    (hpass : schedulePass p ws = (sched, rem, p2)) :
    (g.initPresent d = true ↔ (d ∉ g.writes ∧ (d ∈ g.images → d ∉ g.virtuals))) ∧
    ∀ e, p2 e = true ↔ (p e = true ∨ ∃ m, m ∈ sched ∧ e ∈ m.outputs) := by
  constructor
  · unfold Graph.initPresent
    split_ifs <;> simp_all
  · intro e
    have hp := schedulePass_present ws p e
    rw [hpass] at hp
    simp only at hp
    rw [hp]
    simp [List.any_eq_true]

theorem availability_model_amended_witness :
    (gOut.initPresent 7 = true ↔ (7 ∉ gOut.writes ∧ (7 ∈ gOut.images → 7 ∉ gOut.virtuals))) ∧
    ∀ e, (schedulePass gOut.initPresent gOut.nodes).2.2 e = true ↔
      (gOut.initPresent e = true ∨
        ∃ m, m ∈ (schedulePass gOut.initPresent gOut.nodes).1 ∧ e ∈ m.outputs) :=
  availability_model_amended gOut 7 gOut.initPresent gOut.nodes _ _ _ rfl

theorem addNodeRunU8_self (l : List Nat) :
    addNodeRunU8 l l = l.map fun v => 2 * v % 256 := by
  induction l with
  | nil => rfl
  | cons a t ih =>
    have h2 : a + a = 2 * a := by ring
    simp only [addNodeRunU8, List.zipWith_cons_cons, List.map_cons] at ih ⊢
    rw [h2, ih]

/-- The input buffer of the end-to-end scenario: 16 8-bit pixels, one of
which (200) doubles past 255. -/
def bufC6 : List Nat := [200, 1, 2, 3, 4, 5, 6, 7, 8, 9, 10, 11, 12, 13, 14, 15]

/-- Claim C6 fails on the code: with input pixel 200, the emitted
truncating kernel stores 2 * 200 mod 256 = 144, not min 255 400 = 255. -/
theorem add_node_truncation_cex :
    addNodeVerify ⟨4, 4, Color.U8⟩ ⟨4, 4, Color.U8⟩ ⟨0, 0, Color.VIRT⟩ .truncate
        = .ok ⟨4, 4, Color.U8⟩ ∧
    addNodeRunU8 bufC6 bufC6 ≠ bufC6.map (fun v => min 255 (2 * v)) := by
  decide

/-- Claim C6 (amended): with an externally-backed 4x4 8-bit input, a
virtual output and a single multiply-by-2-with-truncation node
(`AddNode` of the input with itself under `CONVERT_POLICY_TRUNCATE`),
verification resolves the output to a 4x4 8-bit image, and the compiled
kernel stores `input[i] * 2 mod 256` at every pixel — which agrees with
`min 255 (input[i] * 2)` exactly on pixel values at most 127. -/
theorem add_node_end_to_end_amended (inBuf : List Nat) :
    addNodeVerify ⟨4, 4, Color.U8⟩ ⟨4, 4, Color.U8⟩ ⟨0, 0, Color.VIRT⟩ .truncate
        = .ok ⟨4, 4, Color.U8⟩ ∧
    addNodeRunU8 inBuf inBuf = inBuf.map (fun v => 2 * v % 256) ∧
    ∀ v : Nat, v ≤ 127 → 2 * v % 256 = min 255 (2 * v) := by
  refine ⟨by decide, addNodeRunU8_self inBuf, fun v hv => ?_⟩
  rw [Nat.mod_eq_of_lt (by omega), min_eq_right (by omega)]

theorem add_node_end_to_end_amended_witness :
    addNodeVerify ⟨4, 4, Color.U8⟩ ⟨4, 4, Color.U8⟩ ⟨0, 0, Color.VIRT⟩ .truncate
        = .ok ⟨4, 4, Color.U8⟩ ∧
    addNodeRunU8 bufC6 bufC6 = bufC6.map (fun v => 2 * v % 256) ∧
    ∀ v : Nat, v ≤ 127 → 2 * v % 256 = min 255 (2 * v) :=
  add_node_end_to_end_amended bufC6

/-- Claim C1: whenever the scheduler returns an order for a (single-writer)
graph, that order is a permutation of the node list in which every node
appears after the producer of each of its virtual input images. -/
theorem schedule_is_valid_topological_order (g : Graph) (hsw : SingleWriter g)
    (order : List Node) (h : g.schedule = .ok order) :
    order.Perm g.nodes ∧
      ∀ l₁ n l₂, order = l₁ ++ n :: l₂ → ∀ d ∈ n.inputs, d ∈ g.virtuals →
        ∀ p, g.producerOf d = some p → p ∈ l₁ := by
  obtain ⟨hperm, hvalid⟩ := schedule_ok_sound g order h
  refine ⟨hperm, ?_⟩
  intro l₁ n l₂ hsplit d hd _hvirt p hp
  have hpmem : p ∈ g.nodes := List.mem_of_find?_eq_some hp
  have hpwrites : d ∈ p.outputs ++ p.inouts := by
    simpa using List.find?_some hp
  rcases hvalid l₁ n l₂ hsplit d hd with htrue | ⟨m, hm1, hm2⟩
  · rw [initPresent_false_of_written hpmem hpwrites] at htrue
    cases htrue
  · have hmorder : m ∈ order := hsplit ▸ List.mem_append_left _ hm1
    have hmg : m ∈ g.nodes := hperm.mem_iff.mp hmorder
    have hmp : m = p := hsw m hmg p hpmem d (List.mem_append_left _ hm2) hpwrites
    exact hmp ▸ hm1

/-- A two-node pipeline: `⟨[],[1],[]⟩` produces the virtual image 1
consumed by `⟨[1],[2],[]⟩`, listed in reverse order. -/
def gLin : Graph := ⟨[⟨[1], [2], []⟩, ⟨[], [1], []⟩], [1, 2], [1, 2]⟩

theorem schedule_is_valid_topological_order_witness :
    ([⟨[], [1], []⟩, ⟨[1], [2], []⟩] : List Node).Perm gLin.nodes ∧
      ∀ l₁ n l₂, ([⟨[], [1], []⟩, ⟨[1], [2], []⟩] : List Node) = l₁ ++ n :: l₂ →
        ∀ d ∈ n.inputs, d ∈ gLin.virtuals →
          ∀ p, gLin.producerOf d = some p → p ∈ l₁ :=
  schedule_is_valid_topological_order gLin (by decide) _ (by decide)

theorem depends_indexOf_lt (g : Graph) (hsw : SingleWriter g)
    (order : List Node) (hperm : order.Perm g.nodes)
    (hvalid : ∀ l₁ n l₂, order = l₁ ++ n :: l₂ → ∀ d ∈ n.inputs,
      g.initPresent d = true ∨ ∃ m, m ∈ l₁ ∧ d ∈ m.outputs)
    (a b : Node) (hdep : Depends g a b) :
    order.indexOf b < order.indexOf a := by
  obtain ⟨ha, hb, d, hd1, hd2⟩ := hdep
  have hao : a ∈ order := hperm.mem_iff.mpr ha
  have hi : order.indexOf a < order.length := List.indexOf_lt_length.mpr hao
  have hsplit : order
      = order.take (order.indexOf a) ++ a :: order.drop (order.indexOf a + 1) := by
    conv_lhs => rw [← List.take_append_drop (order.indexOf a) order]
    rw [List.drop_eq_getElem_cons hi, List.getElem_indexOf hi]
  rcases hvalid _ _ _ hsplit d hd1 with htrue | ⟨m, hm1, hm2⟩
  · rw [initPresent_false_of_written hb (List.mem_append_left _ hd2)] at htrue
    cases htrue
  · have hmo : m ∈ order := List.mem_of_mem_take hm1
    have hmg : m ∈ g.nodes := hperm.mem_iff.mp hmo
    have hmb : m = b :=
      hsw m hmg b hb d (List.mem_append_left _ hm2) (List.mem_append_left _ hd2)
    exact indexOf_lt_of_mem_take order _ (hmb ▸ hm1)

/-- Claim C3: in a (single-writer) graph containing a node whose inputs
depend, transitively, on that node's own output, the scheduler reaches a
pass that schedules zero nodes while nodes remain and aborts with
`InvalidGraphError` rather than returning a schedule (and `Graph.verify`,
whose first step is the scheduler, fails with that error). -/
theorem cyclic_graph_schedule_fails (g : Graph) (hsw : SingleWriter g)
    (n : Node) (hc : Relation.TransGen (Depends g) n n) :
    g.schedule = .error .invalidGraph := by
  cases h : g.schedule with
  | ok order =>
    exfalso
    obtain ⟨hperm, hvalid⟩ := schedule_ok_sound g order h
    have key : ∀ a b : Node, Relation.TransGen (Depends g) a b →
        order.indexOf b < order.indexOf a := by
      intro a b hab
      induction hab with
      | single hd => exact depends_indexOf_lt g hsw order hperm hvalid _ _ hd
      | tail _ hd ih =>
        exact lt_trans (depends_indexOf_lt g hsw order hperm hvalid _ _ hd) ih
    exact lt_irrefl _ (key n n hc)
  | error e =>
    rw [scheduleAux_error _ _ _ e h]

/-- The two-node cycle used to witness the cycle-detection claim. -/
def gCyc : Graph := ⟨[⟨[0], [1], []⟩, ⟨[1], [0], []⟩], [0, 1], [0, 1]⟩

theorem cyclic_graph_schedule_fails_witness :
    gCyc.schedule = .error .invalidGraph :=
  cyclic_graph_schedule_fails gCyc (by decide) ⟨[0], [1], []⟩
    (Relation.TransGen.tail
      (Relation.TransGen.single
        (show Depends gCyc ⟨[0], [1], []⟩ ⟨[1], [0], []⟩ by decide))
      (show Depends gCyc ⟨[1], [0], []⟩ ⟨[0], [1], []⟩ by decide))

/-- The acyclic graph of the implicit inout claim: image 0 is written only
through an inout parameter and read by the second node. -/
def gInoutBlocked : Graph := ⟨[⟨[], [], [0]⟩, ⟨[0], [1], []⟩], [0, 1], [1]⟩

/-- Claim C9: a scheduler pass marks available precisely the output images
of the nodes it schedules — images written only through inout parameters
are never marked — and therefore a graph in which some node's input image
is written solely through another node's inout parameter fails scheduling
with `InvalidGraphError`, cyclic or not. -/
theorem inout_production_never_available (g : Graph) (n : Node) (d : Nat)
    (hn : n ∈ g.nodes) (hd : d ∈ n.inputs)
    (hio : ∃ m ∈ g.nodes, d ∈ m.inouts)
    (hnoout : ∀ m ∈ g.nodes, d ∉ m.outputs) :
    (∀ p ws sched rem p2, schedulePass p ws = (sched, rem, p2) →
      ∀ e, (∀ m ∈ sched, e ∉ m.outputs) → p2 e = p e) ∧
    g.schedule = .error .invalidGraph := by
  constructor
  · intro p ws sched rem p2 hpass e he
    have hp := schedulePass_present ws p e
    rw [hpass] at hp
    simp only at hp
    rw [hp]
    have hany : (sched.any fun m => decide (e ∈ m.outputs)) = false := by
      simp only [List.any_eq_false, decide_eq_true_eq]
      exact he
    rw [hany, Bool.or_false]
  · cases h : g.schedule with
    | ok order =>
      exfalso
      obtain ⟨hperm, hvalid⟩ := schedule_ok_sound g order h
      have hno : n ∈ order := hperm.mem_iff.mpr hn
      obtain ⟨l₁, l₂, hsplit⟩ := List.append_of_mem hno
      rcases hvalid l₁ n l₂ hsplit d hd with htrue | ⟨m, hm1, hm2⟩
      · obtain ⟨mw, hmw, hmwd⟩ := hio
        rw [initPresent_false_of_written hmw (List.mem_append_right _ hmwd)] at htrue
        cases htrue
      · have hmo : m ∈ order := hsplit ▸ List.mem_append_left _ hm1
        exact hnoout m (hperm.mem_iff.mp hmo) hm2
    | error e =>
      rw [scheduleAux_error _ _ _ e h]

theorem inout_production_never_available_witness :
    (∀ p ws sched rem p2, schedulePass p ws = (sched, rem, p2) →
      ∀ e, (∀ m ∈ sched, e ∉ m.outputs) → p2 e = p e) ∧
    gInoutBlocked.schedule = .error .invalidGraph :=
  inout_production_never_available gInoutBlocked ⟨[0], [1], []⟩ 0
    (by decide) (by decide) (by decide) (by decide)

theorem suggest_color_idem (s : ImgState) (c : Color) :
    suggest_color (suggest_color s c) c = suggest_color s c := by
  unfold suggest_color
  split_ifs <;> simp_all

theorem suggest_color_width (s : ImgState) (c : Color) :
    (suggest_color s c).width = s.width := by
  unfold suggest_color
  split_ifs <;> rfl

theorem suggest_color_height (s : ImgState) (c : Color) :
    (suggest_color s c).height = s.height := by
  unfold suggest_color
  split_ifs <;> rfl

theorem ensure_shape_ok_inv {s : ImgState} {w h : Nat} {s2 : ImgState}
    (he : ensure_shape s w h = (.ok (), s2)) :
    s2.width = w ∧ s2.height = h := by
  obtain ⟨a, b, c⟩ := s
  simp only [ensure_shape] at he
  split_ifs at he <;> simp_all <;> (rw [← he]; exact ⟨rfl, rfl⟩)

theorem ensure_shape_of_resolved (s : ImgState) (w h : Nat)
    (hw : s.width = w) (hh : s.height = h) :
    ensure_shape s w h = (.ok (), s) := by
  obtain ⟨a, b, c⟩ := s
  simp only at hw hh
  subst hw
  subst hh
  simp only [ensure_shape]
  split_ifs <;> simp_all

/-- Claim C8: `suggest_color` and `ensure_similar` are idempotent — a
second call with the same argument returns the state the first successful
call produced, unchanged. -/
theorem format_propagation_idempotent (s other : ImgState) (c : Color)
    (s2 : ImgState) (h : ensure_similar s other = (.ok (), s2)) :
    suggest_color (suggest_color s c) c = suggest_color s c ∧
    ensure_similar s2 other = (.ok (), s2) := by
  refine ⟨suggest_color_idem s c, ?_⟩
  unfold ensure_similar at h
  cases hes : ensure_shape s other.width other.height with
  | mk r s1 =>
    rw [hes] at h
    cases r with
    | error e => simp at h
    | ok u =>
      cases u
      dsimp only at h
      by_cases hit : (suggest_color s1 other.color).color.items ≠ other.color.items
      · rw [if_pos hit] at h
        simp at h
      · rw [if_neg hit] at h
        have hs2 : s2 = suggest_color s1 other.color := by
          have h2 := congrArg Prod.snd h
          exact h2.symm
        have hsugg : suggest_color s2 other.color = s2 := by
          rw [hs2]
          exact suggest_color_idem s1 other.color
        obtain ⟨hw, hh⟩ := ensure_shape_ok_inv hes
        have hsw : s2.width = other.width := by
          rw [hs2, suggest_color_width]; exact hw
        have hsh : s2.height = other.height := by
          rw [hs2, suggest_color_height]; exact hh
        rw [← hs2] at hit
        unfold ensure_similar
        rw [ensure_shape_of_resolved s2 other.width other.height hsw hsh]
        dsimp only
        rw [hsugg, if_neg hit]

theorem format_propagation_idempotent_witness :
    suggest_color (suggest_color ⟨0, 0, Color.VIRT⟩ Color.U8) Color.U8
        = suggest_color ⟨0, 0, Color.VIRT⟩ Color.U8 ∧
    ensure_similar ⟨4, 4, Color.U8⟩ ⟨4, 4, Color.U8⟩ = (.ok (), ⟨4, 4, Color.U8⟩) :=
  format_propagation_idempotent ⟨0, 0, Color.VIRT⟩ ⟨4, 4, Color.U8⟩ Color.U8
    ⟨4, 4, Color.U8⟩ (by decide)

end Pyvx
